import Mathlib

/-!
Verification development for `xradio/_utils/_casacore/casacore_from_casatools.py`,
an API-compatibility shim that re-exposes `casatools` table/image handles with
`python-casacore` conventions (row-major arrays, reversed axis order).

The Python module is shallowly embedded: NumPy arrays become `NDArray`
(shape, flat physical buffer, contiguity flags); Python values crossing the
facade become the `PyVal` inductive; Python dicts become association lists
with first-match lookup and overwrite-or-append assignment; engine (casatools)
calls are modelled by records of the arguments the facade passes to them.
-/

namespace Casacore

/-- Model of a NumPy `ndarray` as seen by this module: logical shape, the
physical buffer (unmoved by `.T`), and the two contiguity flags exposed by
`ndarray.flags`.  `ndarray.T` reverses the shape/strides, which exactly swaps
the two contiguity flags and leaves the buffer in place. -/
structure NDArray where
  shape : List Nat
  data : List Int
  c_contig : Bool
  f_contig : Bool
deriving DecidableEq, Repr

/-- NumPy transpose of all axes: shape reversed, buffer untouched,
C/F-contiguity flags swapped. -/
def NDArray.T (a : NDArray) : NDArray :=
  { shape := a.shape.reverse, data := a.data, c_contig := a.f_contig, f_contig := a.c_contig }

/-- The Python values the module's `recursive_transpose` discriminates on:
NumPy arrays, lists, dicts (string-keyed, insertion-ordered), and the
remaining atoms it leaves untouched (ints, strings, bools, None). -/
inductive PyVal where
  | arr (a : NDArray)
  | list (l : List PyVal)
  | dict (d : List (String × PyVal))
  | int (n : Int)
  | str (s : String)
  | bool (b : Bool)
  | none
deriving Repr

/-- Embedding of `recursive_transpose` (module lines 60–80): transpose a
Fortran-contiguous ndarray, recurse through lists and dict values, return
everything else unchanged. -/
def recursive_transpose : PyVal → PyVal
  | .arr a => if a.f_contig then .arr a.T else .arr a
  | .list l => .list (l.attach.map (fun ⟨x, hx⟩ => recursive_transpose x))
  | .dict d => .dict (d.attach.map (fun ⟨kv, hkv⟩ => (kv.1, recursive_transpose kv.2)))
  | .int n => .int n
  | .str s => .str s
  | .bool b => .bool b
  | .none => .none
decreasing_by
  · simp_wf
    have := List.sizeOf_lt_of_mem hx
    omega
  · simp_wf
    have h1 := List.sizeOf_lt_of_mem hkv
    obtain ⟨k, v⟩ := kv
    simp at h1 ⊢
    omega

theorem recursive_transpose_list (l : List PyVal) :
    recursive_transpose (.list l) = .list (l.map recursive_transpose) := by
  rw [recursive_transpose, List.attach_map_coe]

theorem recursive_transpose_dict (d : List (String × PyVal)) :
    recursive_transpose (.dict d) =
      .dict (d.map (fun kv => (kv.1, recursive_transpose kv.2))) := by
  rw [recursive_transpose]
  congr 1
  rw [← List.attach_map_coe (l := d) (f := fun kv => (kv.1, recursive_transpose kv.2))]

/-- Embedding of `method_wrapper` (lines 38–57): call the method with the
arguments unchanged and pass the return value through `recursive_transpose`. -/
def method_wrapper {α : Type} (method : α → PyVal) : α → PyVal :=
  fun args => recursive_transpose (method args)

/-- Embedding of `wrap_class_methods` (lines 83–99): a class, viewed as its
named method table (inherited members included, as `inspect.getmembers`
returns them), with every method replaced by its wrapped version. -/
def wrap_class_methods {α : Type} (cls : List (String × (α → PyVal))) :
    List (String × (α → PyVal)) :=
  cls.map (fun nm => (nm.1, method_wrapper nm.2))

/-- Embedding of the effective `tablerow.get` (lines 559–573): the method body
carries an explicit `@method_wrapper` decorator, and the `@wrap_class_methods`
class decorator then wraps that already-wrapped function once more. -/
def tablerow_get {α : Type} (raw_get : α → PyVal) : α → PyVal :=
  method_wrapper (method_wrapper raw_get)

/-- A value contains no ndarray that is simultaneously C- and F-contiguous
(NumPy gives both flags to arrays with at most one axis of length > 1,
e.g. any 1-D array or a (1,3) row). -/
def noDegenerateArrays : PyVal → Bool
  | .arr a => !(a.c_contig && a.f_contig)
  | .list [] => true
  | .list (x :: rest) => noDegenerateArrays x && noDegenerateArrays (.list rest)
  | .dict [] => true
  | .dict (kv :: rest) => noDegenerateArrays kv.2 && noDegenerateArrays (.dict rest)
  | .int _ => true
  | .str _ => true
  | .bool _ => true
  | .none => true
decreasing_by
  all_goals simp_wf
  all_goals try omega
  all_goals (obtain ⟨k, v⟩ := kv; simp; omega)

theorem recursive_transpose_idem :
    (v : PyVal) → noDegenerateArrays v = true →
      recursive_transpose (recursive_transpose v) = recursive_transpose v
  | .arr a, h => by
    rw [noDegenerateArrays] at h
    rw [recursive_transpose]
    by_cases hf : a.f_contig = true
    · have hc : a.c_contig = false := by
        cases hcc : a.c_contig <;> simp [hcc, hf] at h ⊢
      simp [hf, recursive_transpose, NDArray.T, hc]
    · simp at hf
      simp [hf, recursive_transpose]
  | .list [], _ => by simp [recursive_transpose_list]
  | .list (x :: rest), h => by
    rw [noDegenerateArrays, Bool.and_eq_true] at h
    have h1 := recursive_transpose_idem x h.1
    have h2 := recursive_transpose_idem (.list rest) h.2
    simp only [recursive_transpose_list, List.map_cons, PyVal.list.injEq,
      List.cons.injEq] at h2 ⊢
    exact ⟨h1, h2⟩
  | .dict [], _ => by simp [recursive_transpose_dict]
  | .dict (kv :: rest), h => by
    rw [noDegenerateArrays, Bool.and_eq_true] at h
    have h1 := recursive_transpose_idem kv.2 h.1
    have h2 := recursive_transpose_idem (.dict rest) h.2
    simp only [recursive_transpose_dict, List.map_cons, PyVal.dict.injEq,
      List.cons.injEq, Prod.mk.injEq, true_and] at h2 ⊢
    exact ⟨h1, h2⟩
  | .int _, _ => by simp [recursive_transpose]
  | .str _, _ => by simp [recursive_transpose]
  | .bool _, _ => by simp [recursive_transpose]
  | .none, _ => by simp [recursive_transpose]
decreasing_by
  all_goals simp_wf
  all_goals try omega
  all_goals (obtain ⟨k, v⟩ := kv; simp; omega)

/-- C1: `recursive_transpose` transposes a Fortran-contiguous (column-major)
ndarray — shape reversed, buffer reinterpreted, contiguity flags swapped;
maps itself over lists preserving order and length; maps itself over dict
values preserving the keys in order; leaves ints, strings, bools, None and
non-Fortran-contiguous (already row-major) arrays unchanged; and on a mapping
holding a sequence of mappings each holding a column-major array, transposes
the leaf array while keeping every key, order and length unchanged. -/
theorem recursive_transpose_normalizes
    (a : NDArray) (l : List PyVal) (d : List (String × PyVal))
    (n : Int) (s k1 k2 : String) (b : Bool) :
    (a.f_contig = true →
      recursive_transpose (.arr a) =
        .arr ⟨a.shape.reverse, a.data, a.f_contig, a.c_contig⟩) ∧
    (a.f_contig = false → recursive_transpose (.arr a) = .arr a) ∧
    recursive_transpose (.list l) = .list (l.map recursive_transpose) ∧
    (l.map recursive_transpose).length = l.length ∧
    recursive_transpose (.dict d) =
      .dict (d.map (fun kv => (kv.1, recursive_transpose kv.2))) ∧
    (d.map (fun kv => (kv.1, recursive_transpose kv.2))).map Prod.fst =
      d.map Prod.fst ∧
    recursive_transpose (.int n) = .int n ∧
    recursive_transpose (.str s) = .str s ∧
    recursive_transpose (.bool b) = .bool b ∧
    recursive_transpose .none = .none ∧
    (a.f_contig = true →
      recursive_transpose (.dict [(k1, .list [.dict [(k2, .arr a)]])]) =
        .dict [(k1, .list [.dict [(k2, .arr a.T)]])]) := by
  refine ⟨fun hf => ?_, fun hf => ?_, recursive_transpose_list l, by simp,
    recursive_transpose_dict d, by simp, by simp [recursive_transpose],
    by simp [recursive_transpose], by simp [recursive_transpose],
    by simp [recursive_transpose], fun hf => ?_⟩
  · simp [recursive_transpose, hf, NDArray.T]
  · simp [recursive_transpose, hf]
  · simp [recursive_transpose_dict, recursive_transpose_list,
      recursive_transpose, hf]

/-- Witness for C1 at the spec's own example: a native-shape-(2,3)
column-major array inside `{"a": [{"x": ...}]}` comes out with the leaf
reshaped to (3,2), flags swapped, and the container untouched. -/
theorem recursive_transpose_normalizes_witness :
    recursive_transpose
        (.dict [("a", .list [.dict [("x",
          .arr ⟨[2, 3], [1, 2, 3, 4, 5, 6], false, true⟩)]])]) =
      .dict [("a", .list [.dict [("x",
        .arr ⟨[3, 2], [1, 2, 3, 4, 5, 6], true, false⟩)]])] :=
  (recursive_transpose_normalizes ⟨[2, 3], [1, 2, 3, 4, 5, 6], false, true⟩
    [] [] 0 "" "a" "x" false).2.2.2.2.2.2.2.2.2.2 rfl

/-- C2 counterexample: `tablerow.get` is wrapped twice (its explicit
`@method_wrapper` plus the class decorator).  On a result that is a
both-C-and-F-contiguous (1,3) array — exactly what NumPy reports for a row
vector — the double wrap transposes twice: the caller sees the original
(1,3) shape instead of the single-normalized (3,1), so wrapping twice does
double-transpose an array in the result. -/
theorem tablerow_get_double_transposes :
    tablerow_get (fun _ : Unit => .arr ⟨[1, 3], [1, 2, 3], true, true⟩) () =
      .arr ⟨[1, 3], [1, 2, 3], true, true⟩ ∧
    method_wrapper (fun _ : Unit => .arr ⟨[1, 3], [1, 2, 3], true, true⟩) () =
      .arr ⟨[3, 1], [1, 2, 3], true, true⟩ ∧
    tablerow_get (fun _ : Unit => .arr ⟨[1, 3], [1, 2, 3], true, true⟩) () ≠
      method_wrapper (fun _ : Unit => .arr ⟨[1, 3], [1, 2, 3], true, true⟩) () := by
  refine ⟨?_, ?_, ?_⟩
  · simp [tablerow_get, method_wrapper, recursive_transpose, NDArray.T]
  · simp [method_wrapper, recursive_transpose, NDArray.T]
  · simp [tablerow_get, method_wrapper, recursive_transpose, NDArray.T]

/-- C2 as amended: a wrapped method returns exactly the normalizer applied to
the wrapped function's result with the arguments passed through unmodified;
`wrap_class_methods` wraps every method of the table, keeping names in order;
and double wrapping does not double-transpose provided no array in the result
is simultaneously C- and F-contiguous (the transpose of a strictly
Fortran-contiguous array is no longer Fortran-contiguous, so the second pass
leaves it alone). -/
theorem method_wrapper_spec {α : Type} (m : α → PyVal) (args : α)
    (cls : List (String × (α → PyVal)))
    (h : noDegenerateArrays (m args) = true) :
    method_wrapper m args = recursive_transpose (m args) ∧
    (wrap_class_methods cls).map Prod.fst = cls.map Prod.fst ∧
    (∀ nm ∈ cls, (nm.1, method_wrapper nm.2) ∈ wrap_class_methods cls) ∧
    method_wrapper (method_wrapper m) args = method_wrapper m args := by
  refine ⟨rfl, by simp [wrap_class_methods], ?_, ?_⟩
  · intro nm hnm
    exact List.mem_map_of_mem (fun nm => (nm.1, method_wrapper nm.2)) hnm
  · exact recursive_transpose_idem (m args) h

/-- Witness for the amended C2 at a strictly column-major (2,3) array. -/
theorem method_wrapper_spec_witness :
    noDegenerateArrays (.arr ⟨[2, 3], [1, 2, 3, 4, 5, 6], false, true⟩) = true ∧
    method_wrapper
        (method_wrapper (fun _ : Unit =>
          .arr ⟨[2, 3], [1, 2, 3, 4, 5, 6], false, true⟩)) () =
      method_wrapper (fun _ : Unit =>
        .arr ⟨[2, 3], [1, 2, 3, 4, 5, 6], false, true⟩) () :=
  ⟨by simp [noDegenerateArrays], (method_wrapper_spec
    (fun _ : Unit => .arr ⟨[2, 3], [1, 2, 3, 4, 5, 6], false, true⟩) ()
    [] (by simp [noDegenerateArrays])).2.2.2⟩

/-! ## `table.getcellslice` (lines 251–300) -/

/-- The `rownr` argument as the caller may pass it: a single row number or a
sequence of row numbers. -/
inductive RowArg where
  | one (r : Int)
  | seq (rs : List Int)
deriving DecidableEq, Repr

/-- The `incr` argument: a single stride or a per-axis sequence. -/
inductive IncrArg where
  | one (i : Int)
  | seq (l : List Int)
deriving DecidableEq, Repr

/-- The arguments `table.getcellslice` actually passes to the engine call
`super().getcellslice(columnname=..., rownr=..., blc=..., trc=...)`.
No `incr` keyword appears in that call, so the record has no stride field:
the engine is left to its default stride. -/
structure CellSliceCall where
  columnname : String
  rownr : Int
  blc : List Int
  trc : List Int
deriving DecidableEq, Repr

/-- Embedding of `table.getcellslice`: the body reverses (or broadcasts) the
caller's `rownr`, then overwrites it with `0`; reverses `blc` and `trc`;
reverses or broadcasts `incr` into a local that is never used; and invokes the
engine with `rownr = 0` and no stride. -/
def getcellslice (columnname : String) (rownr : RowArg) (blc trc : List Int)
    (incr : IncrArg) : CellSliceCall :=
  let rownr1 : List Int := match rownr with
    | .seq rs => rs.reverse
    | .one r => List.replicate blc.length r
  let rownr2 : Int := 0
  let blc1 := blc.reverse
  let trc1 := trc.reverse
  let incr1 : List Int := match incr with
    | .seq l => l.reverse
    | .one i => List.replicate blc1.length i
  ⟨columnname, rownr2, blc1, trc1⟩

/-- C3 evidence: the engine invocation made by `getcellslice` always carries
`rownr = 0` — the caller's row numbers are discarded, not reversed into the
call — and at the concrete failing input (row 5 of column `DATA`) the full
engine call is `(DATA, 0, [0,0], [1,1])` with no stride argument at all,
instead of honoring row 5 and the broadcast stride `[1, 1]`. -/
theorem getcellslice_discards_rownr_and_incr :
    (∀ (c : String) (r : RowArg) (blc trc : List Int) (i : IncrArg),
      (getcellslice c r blc trc i).rownr = 0) ∧
    getcellslice "DATA" (.one 5) [0, 0] [1, 1] (.one 1) =
      ⟨"DATA", 0, [0, 0], [1, 1]⟩ := by
  constructor
  · intro c r blc trc i
    rfl
  · rfl

/-! ## `table.__init__` (lines 130–144) -/

/-- The constructor arguments accepted by the facade `table.__init__`. -/
structure TableCtorArgs where
  tablename : String
  tabledesc : Bool
  nrow : Nat
  readonly : Bool
  lockoptions : List (String × String)
  ack : Bool
  dminfo : List (String × String)
  endian : String
  memorytable : Bool
  concatsubtables : List String
  kwargs : List (String × String)
deriving Repr

/-- The arguments the facade passes to the engine constructor
`super().__init__(tablename=..., lockoptions=..., nomodify=True, **kwargs)`. -/
structure EngineOpenCall where
  tablename : String
  lockoptions : List (String × String)
  nomodify : Bool
  kwargs : List (String × String)
deriving DecidableEq, Repr

/-- Embedding of `table.__init__`: only `tablename`, `lockoptions` and the
extra keyword arguments are forwarded, with `nomodify` hard-wired to `True`. -/
def table_init (a : TableCtorArgs) : EngineOpenCall :=
  ⟨a.tablename, a.lockoptions, true, a.kwargs⟩

/-- C10: every engine handle is opened with `nomodify = True` regardless of
`readonly`, and the engine call is a function of `tablename`, `lockoptions`
and `kwargs` alone — `readonly`, `tabledesc`, `nrow`, `ack`, `dminfo`,
`endian`, `memorytable` and `concatsubtables` are accepted but never
forwarded, so two constructions differing only in those arguments make the
identical engine call. -/
theorem table_init_always_nomodify (a b : TableCtorArgs)
    (h1 : a.tablename = b.tablename) (h2 : a.lockoptions = b.lockoptions)
    (h3 : a.kwargs = b.kwargs) :
    (table_init a).nomodify = true ∧ table_init a = table_init b := by
  constructor
  · rfl
  · simp [table_init, h1, h2, h3]

/-- Witness for C10: opening with `readonly = False` (and different
`tabledesc`, `nrow`, `ack`, `dminfo`, `endian`, `memorytable`,
`concatsubtables`) still opens the engine read-only, identically to a
`readonly = True` construction. -/
theorem table_init_always_nomodify_witness :
    (table_init ⟨"t.ms", true, 7, false, [("option", "auto")], false,
        [("dm", "x")], "little", true, ["SUB"], [("extra", "1")]⟩).nomodify
      = true ∧
    table_init ⟨"t.ms", true, 7, false, [("option", "auto")], false,
        [("dm", "x")], "little", true, ["SUB"], [("extra", "1")]⟩ =
      table_init ⟨"t.ms", false, 0, true, [("option", "auto")], true,
        [], "aipsrc", false, [], [("extra", "1")]⟩ :=
  table_init_always_nomodify _ _ rfl rfl rfl

/-! ## `table.taql` (lines 178–221) -/

/-- The engine operations `table.taql` consumes: the open-state probe
`self.isopened(name)` and the raw query runner `_swigobj.taql(q)`
(`none` models the query raising, `some r` a result handle named `r`). -/
structure TaqlEngine where
  isopened : String → Bool
  runTaql : String → Option String

/-- Observable outcome of one `taql` call: the propagated result (`none`
models the query exception escaping), the set of directories on disk after
the call, and whether any temporary copy made for the call was closed. -/
structure TaqlResult where
  result : Option String
  fs : List String
  tmpClosed : Bool
deriving DecidableEq, Repr

/-- Embedding of `table.taql`: if the handle is not open, a shallow copy named
`name + "_copy"` is created on disk and queried instead; `$mtable`/`$gtable`
are substituted by the resolved table name; after a successful query the copy
is closed and `shutil.rmtree` removes its storage.  The source has no
`try/finally`: when `runTaql` raises, the two cleanup lines are simply never
reached. -/
def table_taql (eng : TaqlEngine) (name : String) (fs : List String)
    (cmd : String) : TaqlResult :=
  let is_open := eng.isopened name
  let tablename := if is_open then name else name ++ "_copy"
  let fs1 := if is_open then fs else fs ++ [tablename]
  let tb_query := (cmd.replace "$mtable" tablename).replace "$gtable" tablename
  match eng.runTaql tb_query with
  | none => ⟨none, fs1, is_open⟩
  | some res =>
      if is_open then ⟨some res, fs1, true⟩
      else ⟨some res, (fs1.erase tablename), true⟩

/-- C4 counterexample: on a source handle that is not open, a failing query
leaves the temporary copy `t_copy` on disk and never closes it — the cleanup
is not guaranteed on query failure, contradicting the claim that the
temporary's storage never exists on the filesystem after the call. -/
theorem table_taql_no_cleanup_on_failure :
    table_taql ⟨fun _ => false, fun _ => none⟩ "t" [] "SELECT * FROM $mtable" =
      ⟨none, ["t_copy"], false⟩ :=
  rfl

/-- C4 as amended: when the source handle is not open and the query succeeds,
the disposable shallow copy is created, queried, closed and its backing
storage deleted before the call returns (the filesystem is exactly as before
the call); but when the query fails the exception propagates without running
the cleanup, so the copy's storage is left behind. -/
theorem table_taql_cleanup_on_success (eng : TaqlEngine) (name : String)
    (fs : List String) (cmd res : String)
    (hopen : eng.isopened name = false)
    (hfresh : (name ++ "_copy") ∉ fs)
    (hrun : eng.runTaql ((cmd.replace "$mtable" (name ++ "_copy")).replace
      "$gtable" (name ++ "_copy")) = some res) :
    table_taql eng name fs cmd = ⟨some res, fs, true⟩ := by
  unfold table_taql
  rw [hopen]
  simp only [Bool.false_eq_true, if_false, hrun]
  rw [List.erase_append_right _ hfresh, List.erase_cons_head]
  simp

/-- Witness for the amended C4: a successful query against a closed handle
ends with the filesystem exactly as it started and the temporary closed. -/
theorem table_taql_cleanup_on_success_witness :
    table_taql ⟨fun _ => false, fun _ => some "r"⟩ "t" ["other"] "$gtable" =
      ⟨some "r", ["other"], true⟩ :=
  table_taql_cleanup_on_success ⟨fun _ => false, fun _ => some "r"⟩ "t"
    ["other"] "$gtable" "r" rfl (by simp) rfl

/-! ## `tablecolumn.get` (lines 619–633) -/

/-- Embedding of `tablecolumn.get` under its `@method_wrapper` decorator:
the body is exactly `self._table.getcell(self._columnname, irow)`, whose
outcome (data or an engine exception, modelled as `Except`) depends on the
owning table handle — here its open state plus the engine's response to a
`getcell` in that state.  The wrapper normalizes a returned value; an
exception propagates.  No open-state check of any kind appears in the body. -/
def tablecolumn_get (getcell : Bool → String → Int → Except String PyVal)
    (tableIsOpen : Bool) (columnname : String) (irow : Int) :
    Except String PyVal :=
  (getcell tableIsOpen columnname irow).map recursive_transpose

/-- C7 counterexample: with an owning handle that has been closed, an engine
whose `getcell` silently answers stale data makes the column view return that
data (normalized) with no error at all — the facade raises nothing of its
own, so no `ClosedHandleError` (a name that appears nowhere in the module)
protects the access. -/
theorem tablecolumn_get_closed_returns_stale :
    tablecolumn_get (fun _ _ _ => .ok (.int 42)) false "DATA" 0 =
      .ok (.int 42) := by
  simp [tablecolumn_get, Except.map, recursive_transpose]

/-- C7 as amended: `tablecolumn.get` performs no defensive closed-handle
check — its outcome on a closed owning handle is exactly the engine's
outcome for that closed handle, normalized.  If the engine raises, that
engine error propagates unchanged; if the engine silently returns a value,
the view silently returns it. -/
theorem tablecolumn_get_no_defensive_check
    (getcell : Bool → String → Int → Except String PyVal)
    (c : String) (r : Int) (v : PyVal) (e : String)
    (hstale : getcell false c r = .ok v)
    (hraise : getcell true c r = .error e) :
    tablecolumn_get getcell false c r = .ok (recursive_transpose v) ∧
    tablecolumn_get getcell true c r = .error e := by
  constructor
  · rw [tablecolumn_get, hstale]
    rfl
  · rw [tablecolumn_get, hraise]
    rfl

/-- Witness for the amended C7. -/
theorem tablecolumn_get_no_defensive_check_witness :
    tablecolumn_get
        (fun isOpen _ _ => if isOpen then .error "boom" else .ok (.int 7))
        false "DATA" 3 = .ok (.int 7) ∧
    tablecolumn_get
        (fun isOpen _ _ => if isOpen then .error "boom" else .ok (.int 7))
        true "DATA" 3 = .error "boom" := by
  have h := tablecolumn_get_no_defensive_check
    (fun isOpen _ _ => if isOpen then .error "boom" else .ok (.int 7))
    "DATA" 3 (.int 7) "boom" rfl rfl
  simpa [recursive_transpose] using h

/-! ## A model of Python's `str` on non-negative integers

`getcolshapestring` round-trips shape lists through `ast.literal_eval` and
`str`, and `_flatten_multibeam` builds dictionary keys with `str`.  We model
`str` on naturals by `pyStr` below (decimal digits, most significant first,
computed with structural fuel so terms reduce definitionally), and prove the
digit-level facts those claims need: an unfolding equation, a parsing
round-trip, and injectivity. -/

/-- Fuelled digit emitter: the digits of `n` in base 10, most significant
first, prepended to `acc`.  `fuel > n` always suffices. -/
def pyDigitsAux : Nat → Nat → List Char → List Char
  | 0, _, acc => acc
  | fuel + 1, n, acc =>
      if n < 10 then Nat.digitChar n :: acc
      else pyDigitsAux fuel (n / 10) (Nat.digitChar (n % 10) :: acc)

/-- The decimal digit characters of `n`, most significant first. -/
def pyDigits (n : Nat) : List Char := pyDigitsAux (n + 1) n []

/-- Model of Python `str` on a non-negative integer. -/
def pyStr (n : Nat) : String := ⟨pyDigits n⟩

theorem pyDigitsAux_fuel_irrel (n : Nat) : ∀ f1 f2 acc, n < f1 → n < f2 →
    pyDigitsAux f1 n acc = pyDigitsAux f2 n acc := by
  induction n using Nat.strong_induction_on with
  | _ n ih =>
    intro f1 f2 acc h1 h2
    match f1, f2 with
    | g1 + 1, g2 + 1 =>
      by_cases h10 : n < 10
      · simp [pyDigitsAux, h10]
      · simp only [pyDigitsAux, h10, if_false]
        have hdiv : n / 10 < n := Nat.div_lt_self (by omega) (by omega)
        exact ih (n / 10) hdiv g1 g2 _ (by omega) (by omega)

theorem pyDigitsAux_acc (n : Nat) : ∀ fuel acc, n < fuel →
    pyDigitsAux fuel n acc = pyDigitsAux fuel n [] ++ acc := by
  induction n using Nat.strong_induction_on with
  | _ n ih =>
    intro fuel acc hf
    match fuel with
    | g + 1 =>
      by_cases h10 : n < 10
      · simp [pyDigitsAux, h10]
      · simp only [pyDigitsAux, h10, if_false]
        have hdiv : n / 10 < n := Nat.div_lt_self (by omega) (by omega)
        have hg : n / 10 < g := by omega
        rw [ih (n / 10) hdiv g (Nat.digitChar (n % 10) :: acc) hg,
          ih (n / 10) hdiv g [Nat.digitChar (n % 10)] hg]
        simp

/-- The defining recursion of `pyDigits`, fuel eliminated. -/
theorem pyDigits_unfold (n : Nat) :
    pyDigits n = if n < 10 then [Nat.digitChar n]
      else pyDigits (n / 10) ++ [Nat.digitChar (n % 10)] := by
  by_cases h10 : n < 10
  · simp [pyDigits, pyDigitsAux, h10]
  · have hdiv : n / 10 < n := Nat.div_lt_self (by omega) (by omega)
    have hstep : pyDigits n = pyDigitsAux n (n / 10) [Nat.digitChar (n % 10)] := by
      rw [pyDigits]
      rw [show pyDigitsAux (n + 1) n [] =
        if n < 10 then Nat.digitChar n :: []
        else pyDigitsAux n (n / 10) (Nat.digitChar (n % 10) :: []) from rfl]
      rw [if_neg h10]
    rw [hstep, if_neg h10, pyDigitsAux_acc (n / 10) n _ (by omega),
      pyDigitsAux_fuel_irrel (n / 10) n (n / 10 + 1) [] (by omega) (by omega)]
    rfl

/-- Numeric value of one decimal digit character. -/
def digitVal (c : Char) : Nat := c.toNat - 48

/-- Left fold re-reading a digit string, most significant first. -/
def ofDigitsAux : Nat → List Char → Nat
  | acc, [] => acc
  | acc, c :: cs => ofDigitsAux (acc * 10 + digitVal c) cs

theorem digitVal_digitChar (d : Nat) (h : d < 10) :
    digitVal (Nat.digitChar d) = d := by
  interval_cases d <;> rfl

theorem ofDigitsAux_append (xs ys : List Char) : ∀ acc,
    ofDigitsAux acc (xs ++ ys) = ofDigitsAux (ofDigitsAux acc xs) ys := by
  induction xs with
  | nil => intro acc; rfl
  | cons c cs ih =>
    intro acc
    rw [List.cons_append,
      show ofDigitsAux acc (c :: (cs ++ ys)) =
        ofDigitsAux (acc * 10 + digitVal c) (cs ++ ys) from rfl, ih]
    rfl

theorem ofDigitsAux_pyDigits (n : Nat) : ∀ acc,
    ofDigitsAux acc (pyDigits n) = acc * 10 ^ (pyDigits n).length + n := by
  induction n using Nat.strong_induction_on with
  | _ n ih =>
    intro acc
    rw [pyDigits_unfold]
    by_cases h10 : n < 10
    · rw [if_pos h10,
        show ofDigitsAux acc [Nat.digitChar n] =
          acc * 10 + digitVal (Nat.digitChar n) from rfl,
        digitVal_digitChar n h10]
      simp
    · have hdiv : n / 10 < n := Nat.div_lt_self (by omega) (by omega)
      rw [if_neg h10, ofDigitsAux_append, ih (n / 10) hdiv acc,
        show ∀ b, ofDigitsAux b [Nat.digitChar (n % 10)] =
          b * 10 + digitVal (Nat.digitChar (n % 10)) from fun b => rfl,
        digitVal_digitChar (n % 10) (by omega)]
      simp only [List.length_append, List.length_cons, List.length_nil,
        Nat.zero_add, pow_succ]
      ring_nf
      omega

/-- Parsing round-trip: folding the digit characters of `n` recovers `n`. -/
theorem ofDigitsAux_pyDigits_zero (n : Nat) : ofDigitsAux 0 (pyDigits n) = n := by
  rw [ofDigitsAux_pyDigits]
  simp

theorem pyDigits_injective : Function.Injective pyDigits := by
  intro a b h
  have := ofDigitsAux_pyDigits_zero a
  rw [h, ofDigitsAux_pyDigits_zero] at this
  omega

theorem pyStr_injective : Function.Injective pyStr := by
  intro a b h
  exact pyDigits_injective (congrArg String.data h)

theorem pyDigits_ne_nil (n : Nat) : pyDigits n ≠ [] := by
  rw [pyDigits_unfold]
  by_cases h10 : n < 10 <;> simp [h10]

theorem digitChar_isDigit (d : Nat) (h : d < 10) :
    (Nat.digitChar d).isDigit = true := by
  interval_cases d <;> rfl

theorem pyDigits_all_isDigit (n : Nat) : ∀ c ∈ pyDigits n, c.isDigit = true := by
  induction n using Nat.strong_induction_on with
  | _ n ih =>
    intro c hc
    rw [pyDigits_unfold] at hc
    by_cases h10 : n < 10
    · simp [h10] at hc
      rw [hc]
      exact digitChar_isDigit n h10
    · have hdiv : n / 10 < n := Nat.div_lt_self (by omega) (by omega)
      simp [h10] at hc
      rcases hc with hc | hc
      · exact ih (n / 10) hdiv c hc
      · rw [hc]
        exact digitChar_isDigit (n % 10) (by omega)

/-! ## `table.getcolshapestring` (lines 223–249)

The engine returns each column's native cell shape rendered as a Python list
literal; the facade re-parses it with `ast.literal_eval`, reverses the axis
order, and re-renders it with `str(list(...))`.  `pyListStr` models `str` on
a list of non-negative integers and `literal_eval_natList` models
`ast.literal_eval` on such list literals. -/

/-- Split a character list at every comma (separators consumed). -/
def splitComma : List Char → List (List Char)
  | [] => [[]]
  | c :: rest =>
    match splitComma rest with
    | [] => [[c]]
    | grp :: grps => if c = ',' then [] :: grp :: grps else (c :: grp) :: grps

/-- A non-empty all-digit token read as a natural number. -/
def parseNat (cs : List Char) : Option Nat :=
  if cs ≠ [] ∧ cs.all Char.isDigit then some (ofDigitsAux 0 cs) else none

/-- Parse each comma-separated item (ignoring leading spaces) as a natural. -/
def parseItemsLoop : List (List Char) → Option (List Nat)
  | [] => some []
  | item :: rest => do
      let n ← parseNat (item.dropWhile (· = ' '))
      let ns ← parseItemsLoop rest
      pure (n :: ns)

/-- Model of `ast.literal_eval` restricted to the list-of-naturals literals
exchanged here: a `[...]`-delimited, comma-separated sequence of decimal
numerals with optional spaces after the commas. -/
def literal_eval_natList (s : String) : Option (List Nat) :=
  match s.data with
  | '[' :: rest =>
      match rest.getLast? with
      | some ']' =>
          let body := rest.dropLast
          if body = [] then some [] else parseItemsLoop (splitComma body)
      | _ => Option.none
  | _ => Option.none

/-- The characters between the brackets of Python `str(list_of_ints)`:
items separated by `", "`. -/
def renderItems : List Nat → List Char
  | [] => []
  | [n] => pyDigits n
  | n :: rest => pyDigits n ++ ',' :: ' ' :: renderItems rest

/-- Model of Python `str` on a list of non-negative integers,
e.g. `pyListStr [10, 5] = "[10, 5]"`. -/
def pyListStr (l : List Nat) : String := ⟨'[' :: (renderItems l ++ [']'])⟩

/-- Embedding of `table.getcolshapestring`: for each engine-rendered shape
string, `str(list(reversed(ast.literal_eval(shape))))`; a string
`literal_eval` cannot read raises, modelled by `none`. -/
def getcolshapestring : List String → Option (List String)
  | [] => some []
  | shape :: rest => do
      let l ← literal_eval_natList shape
      let others ← getcolshapestring rest
      pure (pyListStr l.reverse :: others)

theorem splitComma_ne_nil (cs : List Char) : splitComma cs ≠ [] := by
  match cs with
  | [] => simp [splitComma]
  | c :: rest =>
    rw [splitComma]
    match h : splitComma rest with
    | [] => simp
    | grp :: grps => by_cases hc : c = ',' <;> simp [hc]

theorem splitComma_no_comma (cs : List Char) (h : ',' ∉ cs) :
    splitComma cs = [cs] := by
  induction cs with
  | nil => rfl
  | cons c rest ih =>
    have hc : c ≠ ',' := fun hcc => h (hcc ▸ List.mem_cons_self c rest)
    have hrest : ',' ∉ rest := fun hr => h (List.mem_cons_of_mem c hr)
    rw [splitComma, ih hrest]
    simp [hc]

theorem splitComma_append (xs ys : List Char) (h : ',' ∉ xs) :
    splitComma (xs ++ ',' :: ys) = xs :: splitComma ys := by
  induction xs with
  | nil =>
    rw [List.nil_append, splitComma]
    match hy : splitComma ys with
    | [] => exact absurd hy (splitComma_ne_nil ys)
    | grp :: grps => simp
  | cons c rest ih =>
    have hc : c ≠ ',' := fun hcc => h (hcc ▸ List.mem_cons_self c rest)
    have hrest : ',' ∉ rest := fun hr => h (List.mem_cons_of_mem c hr)
    rw [List.cons_append, splitComma, ih hrest]
    simp [hc]

theorem isDigit_ne_comma {c : Char} (h : c.isDigit = true) : c ≠ ',' := by
  intro hc
  rw [hc] at h
  exact absurd h (by decide)

theorem isDigit_ne_space {c : Char} (h : c.isDigit = true) : c ≠ ' ' := by
  intro hc
  rw [hc] at h
  exact absurd h (by decide)

theorem pyDigits_no_comma (n : Nat) : ',' ∉ pyDigits n := fun hmem =>
  isDigit_ne_comma (pyDigits_all_isDigit n ',' hmem) rfl

theorem dropWhile_space_digits (cs : List Char)
    (h : ∀ c ∈ cs, c.isDigit = true) : cs.dropWhile (· = ' ') = cs := by
  match cs with
  | [] => rfl
  | c :: rest =>
    rw [List.dropWhile_cons]
    simp [isDigit_ne_space (h c (List.mem_cons_self c rest))]

theorem parseNat_pyDigits (n : Nat) : parseNat (pyDigits n) = some n := by
  rw [parseNat, if_pos ⟨pyDigits_ne_nil n, List.all_eq_true.mpr
    (fun c hc => pyDigits_all_isDigit n c hc)⟩, ofDigitsAux_pyDigits_zero]

theorem parseItemsLoop_space (cs : List Char) :
    parseItemsLoop (splitComma (' ' :: cs)) =
      parseItemsLoop (splitComma cs) := by
  rw [splitComma]
  match h : splitComma cs with
  | [] => exact absurd h (splitComma_ne_nil cs)
  | grp :: grps =>
    show parseItemsLoop
        (if ' ' = ',' then [] :: grp :: grps else (' ' :: grp) :: grps) =
      parseItemsLoop (grp :: grps)
    rw [if_neg (by decide : ¬(' ' = ','))]
    rw [parseItemsLoop, parseItemsLoop]
    rw [show (' ' :: grp).dropWhile (· = ' ') = grp.dropWhile (· = ' ') from by
      rw [List.dropWhile_cons]; simp]

theorem parseItemsLoop_render (l : List Nat) :
    ∀ n : Nat, parseItemsLoop (splitComma (renderItems (n :: l))) =
      some (n :: l) := by
  induction l with
  | nil =>
    intro n
    rw [renderItems, splitComma_no_comma _ (pyDigits_no_comma n),
      parseItemsLoop,
      dropWhile_space_digits _ (pyDigits_all_isDigit n), parseNat_pyDigits]
    rfl
  | cons m rest ih =>
    intro n
    rw [show renderItems (n :: m :: rest) =
        pyDigits n ++ ',' :: ' ' :: renderItems (m :: rest) from rfl,
      splitComma_append _ _ (pyDigits_no_comma n), parseItemsLoop,
      dropWhile_space_digits _ (pyDigits_all_isDigit n), parseNat_pyDigits,
      parseItemsLoop_space, ih m]
    rfl

theorem renderItems_ne_nil (n : Nat) (l : List Nat) :
    renderItems (n :: l) ≠ [] := by
  match l with
  | [] => rw [renderItems]; exact pyDigits_ne_nil n
  | m :: rest =>
    rw [show renderItems (n :: m :: rest) =
      pyDigits n ++ ',' :: ' ' :: renderItems (m :: rest) from rfl]
    simp [pyDigits_ne_nil n]

/-- `literal_eval` inverts `str` on list-of-naturals literals. -/
theorem literal_eval_pyListStr (l : List Nat) :
    literal_eval_natList (pyListStr l) = some l := by
  rw [literal_eval_natList]
  show (match ('[' :: (renderItems l ++ [']'])) with
    | '[' :: rest =>
        match rest.getLast? with
        | some ']' =>
            let body := rest.dropLast
            if body = [] then some [] else parseItemsLoop (splitComma body)
        | _ => Option.none
    | _ => Option.none) = some l
  simp only [List.getLast?_concat, List.dropLast_concat]
  match l with
  | [] => rfl
  | n :: rest =>
    rw [if_neg (renderItems_ne_nil n rest)]
    exact parseItemsLoop_render rest n

/-- C8: for every sequence of native per-cell shapes rendered by the engine,
`getcolshapestring` returns one text entry per column, the textual list
literal of that shape with axis order reversed; in particular native
`[5, 10]` renders as the text `"[10, 5]"`. -/
theorem getcolshapestring_reverses_shapes (shapes : List (List Nat)) :
    getcolshapestring (shapes.map pyListStr) =
      some (shapes.map (fun s => pyListStr s.reverse)) ∧
    getcolshapestring ["[5, 10]"] = some ["[10, 5]"] := by
  constructor
  · induction shapes with
    | nil => rfl
    | cons s rest ih =>
      rw [List.map_cons, getcolshapestring, literal_eval_pyListStr, ih]
      rfl
  · rfl

/-! ## Python dict model

`_flatten_multibeam` manipulates the summary dictionaries by key lookup,
item assignment, `pop` and `update`.  Python dicts are insertion-ordered
with unique keys; we model them as association lists where assignment
overwrites in place if the key exists and appends otherwise. -/

/-- Python `d[key]` (read): first matching entry, `none` models `KeyError`. -/
def dictGet {α : Type} : List (String × α) → String → Option α
  | [], _ => Option.none
  | (k, v) :: rest, key => if k = key then some v else dictGet rest key

/-- Python `d[key] = v`: overwrite in place when the key is present (keys are
unique, so replacing the first occurrence is dict assignment), append at the
end otherwise. -/
def dictSet {α : Type} : List (String × α) → String → α → List (String × α)
  | [], key, v => [(key, v)]
  | (k, w) :: rest, key, v =>
      if k = key then (key, v) :: rest else (k, w) :: dictSet rest key v

/-- Python `d.pop(key, None)`: drop the entry, keeping the others in order. -/
def dictPop {α : Type} (d : List (String × α)) (key : String) :
    List (String × α) :=
  d.filter (fun kv => kv.1 != key)

/-- Python `d.update(items)`: assign each item in order. -/
def dictUpdate {α : Type} (d items : List (String × α)) : List (String × α) :=
  items.foldl (fun acc kv => dictSet acc kv.1 kv.2) d

theorem dictGet_append {α : Type} (d1 d2 : List (String × α)) (k : String) :
    dictGet (d1 ++ d2) k = (dictGet d1 k).or (dictGet d2 k) := by
  induction d1 with
  | nil => rfl
  | cons kv rest ih =>
    obtain ⟨k1, v1⟩ := kv
    by_cases h : k1 = k <;> simp [dictGet, h, ih]

theorem dictGet_eq_none_of_not_mem {α : Type} (d : List (String × α))
    (k : String) (h : k ∉ d.map Prod.fst) : dictGet d k = Option.none := by
  induction d with
  | nil => rfl
  | cons kv rest ih =>
    obtain ⟨k1, v1⟩ := kv
    simp at h
    rw [dictGet, if_neg (fun he => h.1 he.symm)]
    exact ih (by simp [h.2])

theorem dictGet_dictSet_same {α : Type} (d : List (String × α)) (k : String)
    (v : α) : dictGet (dictSet d k v) k = some v := by
  induction d with
  | nil => simp [dictSet, dictGet]
  | cons kv rest ih =>
    obtain ⟨k1, w⟩ := kv
    rw [dictSet]
    by_cases h : k1 = k
    · rw [if_pos h, dictGet, if_pos rfl]
    · rw [if_neg h, dictGet, if_neg h, ih]

theorem dictGet_dictSet_other {α : Type} (d : List (String × α))
    (k k' : String) (v : α) (h : k' ≠ k) :
    dictGet (dictSet d k v) k' = dictGet d k' := by
  induction d with
  | nil => simp [dictSet, dictGet, Ne.symm h]
  | cons kv rest ih =>
    obtain ⟨k1, w⟩ := kv
    rw [dictSet]
    by_cases h1 : k1 = k
    · rw [if_pos h1, dictGet, if_neg (fun hh : k = k' => h hh.symm), dictGet,
        if_neg (h1 ▸ fun hh : k1 = k' => h (h1 ▸ hh).symm)]
    · rw [if_neg h1, dictGet, dictGet, ih]

theorem dictUpdate_cons {α : Type} (d : List (String × α)) (kv : String × α)
    (items : List (String × α)) :
    dictUpdate d (kv :: items) = dictUpdate (dictSet d kv.1 kv.2) items := rfl

theorem dictGet_dictUpdate_not_mem {α : Type} (items : List (String × α)) :
    ∀ d : List (String × α), ∀ k : String, k ∉ items.map Prod.fst →
      dictGet (dictUpdate d items) k = dictGet d k := by
  induction items with
  | nil => intro d k _; rfl
  | cons kv rest ih =>
    intro d k hk
    simp only [List.map_cons, List.mem_cons] at hk
    rw [dictUpdate_cons, ih _ k (fun hmem => hk (Or.inr hmem)),
      dictGet_dictSet_other _ _ _ _ (fun he => hk (Or.inl he))]

theorem dictGet_dictUpdate_nodup_mem {α : Type} (items : List (String × α)) :
    ∀ d : List (String × α), ∀ k : String, ∀ v : α,
      (items.map Prod.fst).Nodup → (k, v) ∈ items →
      dictGet (dictUpdate d items) k = some v := by
  induction items with
  | nil => intro d k v _ hmem; exact absurd hmem (List.not_mem_nil _)
  | cons kv rest ih =>
    intro d k v hnd hmem
    simp only [List.map_cons, List.nodup_cons] at hnd
    rcases List.mem_cons.mp hmem with heq | hmem'
    · subst heq
      rw [dictUpdate_cons,
        dictGet_dictUpdate_not_mem rest _ k hnd.1, dictGet_dictSet_same]
    · have hk : k ≠ kv.1 := by
        intro he
        exact hnd.1 (he ▸ List.mem_map_of_mem Prod.fst hmem')
      rw [dictUpdate_cons]
      exact ih _ k v hnd.2 hmem'

theorem dictGet_range_map {α : Type} (key : Nat → String) (val : Nat → α)
    (hinj : ∀ a b, key a = key b → a = b) :
    ∀ n c : Nat, c < n →
      dictGet ((List.range n).map (fun i => (key i, val i))) (key c) =
        some (val c) := by
  intro n
  induction n with
  | zero => intro c hc; omega
  | succ m ih =>
    intro c hc
    rw [List.range_succ, List.map_append, dictGet_append]
    by_cases hcm : c < m
    · rw [ih c hcm]
      rfl
    · have hc' : c = m := by omega
      subst hc'
      rw [dictGet_eq_none_of_not_mem _ _ ?_]
      · simp [dictGet]
      · intro hmem
        simp only [List.map_map, List.mem_map, Function.comp] at hmem
        obtain ⟨i, hi, hkey⟩ := hmem
        rw [List.mem_range] at hi
        have := hinj i c hkey
        omega

/-! ## `image._flatten_multibeam` (lines 410–439) -/

/-- The values found in the `perplanebeams` summary sub-dictionary:
the channel/polarization counts, one per-plane beam record (abstracted),
and the nested `beams` table keyed `"*"+str(channel)` then
`"*"+str(polarization)`. -/
inductive InfoVal where
  | nat (n : Nat)
  | beam (b : Int)
  | beamtable (m : List (String × List (String × Int)))
deriving DecidableEq, Repr

/-- The image summary as far as `_flatten_multibeam` touches it: the
`perplanebeams` entry when present (the rest of the summary is read and
written through unchanged). -/
structure ImageInfo where
  perplanebeams : Option (List (String × InfoVal))
deriving DecidableEq, Repr

/-- `perplanebeams['*'+str(c)]['*'+str(p)]`. -/
def beamOf (beams : List (String × List (String × Int))) (c p : Nat) :
    Option Int :=
  match dictGet beams ("*" ++ pyStr c) with
  | some inner => dictGet inner ("*" ++ pyStr p)
  | Option.none => Option.none

/-- The inner `for p in range(npol)` loop at one channel `c`: the flat
entries `("*" + str(nchan * p + c), beams['*'+str(c)]['*'+str(p)])` in
loop order, `none` when a lookup raises `KeyError`. -/
def flatRow (beams : List (String × List (String × Int))) (nchan c : Nat) :
    Nat → Option (List (String × Int))
  | 0 => some []
  | p + 1 =>
    match flatRow beams nchan c p, beamOf beams c p with
    | some pre, some b => some (pre ++ [("*" ++ pyStr (nchan * p + c), b)])
    | _, _ => Option.none

/-- The outer `for c in range(nchan)` loop. -/
def flatAll (beams : List (String × List (String × Int))) (nchan npol : Nat) :
    Nat → Option (List (String × Int))
  | 0 => some []
  | c + 1 =>
    match flatAll beams nchan npol c, flatRow beams nchan c npol with
    | some pre, some row => some (pre ++ row)
    | _, _ => Option.none

/-- Embedding of `image._flatten_multibeam`: when `perplanebeams` is present,
read `beams`, `nChannels` and `nStokes`, build the flat dictionary in loop
order, `pop` the nested `beams` entry, and `update` the sub-dictionary with
the flat entries; when absent return the summary unchanged.  `none` models
a `KeyError`/`TypeError` escaping the method. -/
def flatten_multibeam (info : ImageInfo) : Option ImageInfo :=
  match info.perplanebeams with
  | Option.none => some info
  | some ppb =>
    match dictGet ppb "beams", dictGet ppb "nChannels", dictGet ppb "nStokes" with
    | some (.beamtable beams), some (.nat nchan), some (.nat npol) =>
      match flatAll beams nchan npol nchan with
      | some entries =>
        let flat := dictUpdate [] entries
        let ppb1 := dictPop ppb "beams"
        let ppb2 := dictUpdate ppb1 (flat.map (fun kv => (kv.1, InfoVal.beam kv.2)))
        some ⟨some ppb2⟩
      | Option.none => Option.none
    | _, _, _ => Option.none

/-- The canonical nested beams table with `nchan` channels and `npol`
polarizations whose (c, p) beam is `f c p`. -/
def mkBeams (nchan npol : Nat) (f : Nat → Nat → Int) :
    List (String × List (String × Int)) :=
  (List.range nchan).map (fun c => ("*" ++ pyStr c,
    (List.range npol).map (fun p => ("*" ++ pyStr p, f c p))))

/-- A `perplanebeams` sub-dictionary as `image.summary` delivers it. -/
def mkPPB (nchan npol : Nat) (f : Nat → Nat → Int) : List (String × InfoVal) :=
  [("nChannels", .nat nchan), ("nStokes", .nat npol),
   ("beams", .beamtable (mkBeams nchan npol f))]

theorem starKey_inj (a b : Nat) (h : "*" ++ pyStr a = "*" ++ pyStr b) :
    a = b := by
  have hdata := congrArg String.data h
  rw [String.data_append, String.data_append] at hdata
  have : pyStr a = pyStr b := by
    apply String.ext
    simpa using hdata
  exact pyStr_injective this

theorem starKey_ne_of_ne {a b : Nat} (h : a ≠ b) :
    ("*" ++ pyStr a) ≠ ("*" ++ pyStr b) := fun he => h (starKey_inj a b he)

theorem starKey_ne_beams (n : Nat) : ("*" ++ pyStr n) ≠ "beams" := by
  intro h
  have hdata : '*' :: pyDigits n = ['b', 'e', 'a', 'm', 's'] :=
    congrArg String.data h
  simp at hdata

theorem linIdx_inj (nchan c c' p p' : Nat) (hc : c < nchan) (hc' : c' < nchan)
    (h : nchan * p + c = nchan * p' + c') : c = c' ∧ p = p' := by
  have h1 : (nchan * p + c) % nchan = c := by
    rw [Nat.mul_add_mod, Nat.mod_eq_of_lt hc]
  have h2 : (nchan * p' + c') % nchan = c' := by
    rw [Nat.mul_add_mod, Nat.mod_eq_of_lt hc']
  have hcc : c = c' := by rw [← h1, ← h2, h]
  refine ⟨hcc, ?_⟩
  subst hcc
  have : nchan * p = nchan * p' := by omega
  exact Nat.eq_of_mul_eq_mul_left (by omega) this

theorem beamOf_mk (nchan npol : Nat) (f : Nat → Nat → Int) (c p : Nat)
    (hc : c < nchan) (hp : p < npol) :
    beamOf (mkBeams nchan npol f) c p = some (f c p) := by
  rw [beamOf, mkBeams, dictGet_range_map (fun i => "*" ++ pyStr i) _
    (fun a b => starKey_inj a b) nchan c hc]
  exact dictGet_range_map (fun i => "*" ++ pyStr i) _
    (fun a b => starKey_inj a b) npol p hp

/-- One channel's worth of flat entries, as the claim describes them. -/
def specRow (nchan npol c : Nat) (f : Nat → Nat → Int) : List (String × Int) :=
  (List.range npol).map (fun p => ("*" ++ pyStr (nchan * p + c), f c p))

/-- The flat entries for the first `m` channels, in loop order. -/
def specEntries (nchan npol : Nat) (f : Nat → Nat → Int) :
    Nat → List (String × Int)
  | 0 => []
  | c + 1 => specEntries nchan npol f c ++ specRow nchan npol c f

theorem flatRow_mk (nchan npol : Nat) (f : Nat → Nat → Int) (c : Nat)
    (hc : c < nchan) : ∀ m, m ≤ npol →
    flatRow (mkBeams nchan npol f) nchan c m =
      some ((List.range m).map (fun p => ("*" ++ pyStr (nchan * p + c), f c p))) := by
  intro m
  induction m with
  | zero => intro _; rfl
  | succ k ih =>
    intro hk
    rw [flatRow, ih (by omega), beamOf_mk nchan npol f c k hc (by omega),
      List.range_succ, List.map_append]
    rfl

theorem flatAll_mk (nchan npol : Nat) (f : Nat → Nat → Int) :
    ∀ m, m ≤ nchan →
    flatAll (mkBeams nchan npol f) nchan npol m =
      some (specEntries nchan npol f m) := by
  intro m
  induction m with
  | zero => intro _; rfl
  | succ k ih =>
    intro hk
    rw [flatAll, ih (by omega), flatRow_mk nchan npol f k (by omega) npol le_rfl]
    rfl

theorem specEntries_mem (nchan npol : Nat) (f : Nat → Nat → Int) (c p : Nat)
    (hp : p < npol) : ∀ m, c < m →
    ("*" ++ pyStr (nchan * p + c), f c p) ∈ specEntries nchan npol f m := by
  intro m
  induction m with
  | zero => intro h; omega
  | succ k ih =>
    intro hc
    rw [specEntries]
    by_cases hck : c < k
    · exact List.mem_append_left _ (ih hck)
    · have hce : c = k := by omega
      subst hce
      refine List.mem_append_right _ ?_
      rw [specRow]
      exact List.mem_map_of_mem _ (List.mem_range.mpr hp)

theorem specEntries_keys_mem (nchan npol : Nat) (f : Nat → Nat → Int) :
    ∀ m, ∀ k ∈ (specEntries nchan npol f m).map Prod.fst,
      ∃ c < m, ∃ p < npol, k = "*" ++ pyStr (nchan * p + c) := by
  intro m
  induction m with
  | zero => intro k hk; simp [specEntries] at hk
  | succ j ih =>
    intro k hk
    rw [specEntries, List.map_append, List.mem_append] at hk
    rcases hk with hk | hk
    · obtain ⟨c, hc, pp, hpp, he⟩ := ih k hk
      exact ⟨c, by omega, pp, hpp, he⟩
    · rw [specRow, List.map_map] at hk
      obtain ⟨pp, hpp, he⟩ := List.mem_map.mp hk
      rw [List.mem_range] at hpp
      exact ⟨j, by omega, pp, hpp, he.symm⟩

theorem specEntries_keys_nodup (nchan npol : Nat) (f : Nat → Nat → Int) :
    ∀ m, m ≤ nchan → ((specEntries nchan npol f m).map Prod.fst).Nodup := by
  intro m
  induction m with
  | zero => intro _; simp [specEntries]
  | succ j ih =>
    intro hm
    rw [specEntries, List.map_append, List.nodup_append]
    refine ⟨ih (by omega), ?_, ?_⟩
    · rw [specRow, List.map_map]
      refine List.Nodup.map ?_ (List.nodup_range npol)
      intro a b hab
      simp only [Function.comp] at hab
      have := starKey_inj _ _ hab
      have hj : j < nchan := by omega
      exact (linIdx_inj nchan j j a b hj hj this).2
    · intro k hk1 hk2
      obtain ⟨c1, hc1, p1, hp1, he1⟩ := specEntries_keys_mem nchan npol f j k hk1
      rw [specRow, List.map_map] at hk2
      obtain ⟨p2, hp2, he2⟩ := List.mem_map.mp hk2
      simp only [Function.comp] at he2
      rw [he1] at he2
      have hlin := starKey_inj _ _ he2
      have hcj : c1 < nchan := by omega
      have hj : j < nchan := by omega
      have := (linIdx_inj nchan j c1 p2 p1 hj hcj hlin).1
      omega

theorem dictSet_append_fresh {α : Type} (d : List (String × α)) (k : String)
    (v : α) (h : k ∉ d.map Prod.fst) : dictSet d k v = d ++ [(k, v)] := by
  induction d with
  | nil => rfl
  | cons kv rest ih =>
    obtain ⟨k1, w⟩ := kv
    simp only [List.map_cons, List.mem_cons] at h
    rw [dictSet, if_neg (fun he => h (Or.inl he.symm)),
      ih (fun hm => h (Or.inr hm))]
    rfl

theorem dictUpdate_fresh {α : Type} (items : List (String × α)) :
    ∀ d : List (String × α), (items.map Prod.fst).Nodup →
      (∀ k ∈ items.map Prod.fst, k ∉ d.map Prod.fst) →
      dictUpdate d items = d ++ items := by
  induction items with
  | nil => intro d _ _; simp [dictUpdate]
  | cons kv rest ih =>
    intro d hnd hfresh
    simp only [List.map_cons, List.nodup_cons] at hnd
    rw [dictUpdate_cons, dictSet_append_fresh d kv.1 kv.2
      (hfresh kv.1 (by simp)), ih (d ++ [(kv.1, kv.2)]) hnd.2 ?_]
    · simp
    · intro k hk
      rw [List.map_append, List.mem_append]
      rintro (hd | hkv)
      · exact hfresh k (by simp [hk]) hd
      · simp at hkv
        rw [hkv] at hk
        exact hnd.1 hk

theorem map_beam_keys (E : List (String × Int)) :
    (E.map (fun kv => (kv.1, InfoVal.beam kv.2))).map Prod.fst =
      E.map Prod.fst := by
  rw [List.map_map]
  rfl

theorem flatten_multibeam_mkPPB (nchan npol : Nat) (f : Nat → Nat → Int) :
    flatten_multibeam ⟨some (mkPPB nchan npol f)⟩ =
      match flatAll (mkBeams nchan npol f) nchan npol nchan with
      | some entries =>
          some ⟨some (dictUpdate (dictPop (mkPPB nchan npol f) "beams")
            ((dictUpdate [] entries).map (fun kv => (kv.1, InfoVal.beam kv.2))))⟩
      | Option.none => Option.none := rfl

/-- C5: on a summary whose `perplanebeams` holds an `nChannels × nStokes`
nested beams table, `_flatten_multibeam` replaces the nested structure by a
flat mapping: for every channel `c` and polarization `p` the key
`"*" + str(nChannels * p + c)` maps to exactly the original
`beams['*'+str(c)]['*'+str(p)]`, and the nested `beams` entry is gone. -/
theorem flatten_multibeam_flattens (nchan npol : Nat) (f : Nat → Nat → Int)
    (c p : Nat) (hc : c < nchan) (hp : p < npol) :
    ∃ d, flatten_multibeam ⟨some (mkPPB nchan npol f)⟩ = some ⟨some d⟩ ∧
      dictGet d ("*" ++ pyStr (nchan * p + c)) = some (.beam (f c p)) ∧
      dictGet d "beams" = Option.none ∧
      beamOf (mkBeams nchan npol f) c p = some (f c p) := by
  have hA := flatAll_mk nchan npol f nchan le_rfl
  have hnodup := specEntries_keys_nodup nchan npol f nchan le_rfl
  have hflat : dictUpdate [] (specEntries nchan npol f nchan) =
      specEntries nchan npol f nchan := by
    have := dictUpdate_fresh (specEntries nchan npol f nchan) [] hnodup
      (fun k _ => by simp)
    simpa using this
  refine ⟨dictUpdate (dictPop (mkPPB nchan npol f) "beams")
    ((specEntries nchan npol f nchan).map (fun kv => (kv.1, InfoVal.beam kv.2))),
    ?_, ?_, ?_, beamOf_mk nchan npol f c p hc hp⟩
  · rw [flatten_multibeam_mkPPB, hA]
    show some (ImageInfo.mk (some (dictUpdate (dictPop (mkPPB nchan npol f) "beams")
      ((dictUpdate [] (specEntries nchan npol f nchan)).map
        (fun kv => (kv.1, InfoVal.beam kv.2)))))) = _
    rw [hflat]
  · apply dictGet_dictUpdate_nodup_mem
    · rw [map_beam_keys]
      exact hnodup
    · exact List.mem_map_of_mem _ (specEntries_mem nchan npol f c p hp nchan hc)
  · rw [dictGet_dictUpdate_not_mem, show dictPop (mkPPB nchan npol f) "beams" =
      [("nChannels", .nat nchan), ("nStokes", .nat npol)] from rfl]
    · rfl
    · rw [map_beam_keys]
      intro hmem
      obtain ⟨c1, _, p1, _, he⟩ :=
        specEntries_keys_mem nchan npol f nchan "beams" hmem
      exact starKey_ne_beams (nchan * p1 + c1) he.symm

/-- Witness for C5 at the spec's example: `nChannels = 3`, `nStokes = 2`,
channel 1, polarization 1 — the flattened key is `"*4"` and holds the
original `beams['*1']['*1']`. -/
theorem flatten_multibeam_flattens_witness :
    ∃ d, flatten_multibeam
        ⟨some (mkPPB 3 2 (fun c p => (10 * c + p : Int)))⟩ = some ⟨some d⟩ ∧
      dictGet d "*4" = some (.beam 11) ∧
      dictGet d "beams" = Option.none ∧
      beamOf (mkBeams 3 2 (fun c p => (10 * c + p : Int))) 1 1 = some 11 :=
  flatten_multibeam_flattens 3 2 (fun c p => (10 * c + p : Int)) 1 1
    (by decide) (by decide)

/-! ## `tablerow.__getitem__` (lines 575–591) and
`tablecolumn.__getitem__` (lines 635–660) -/

/-- A Python `slice` object: optional start, stop and step. -/
structure PySlice where
  start : Option Int
  stop : Option Int
  step : Option Int
deriving DecidableEq, Repr

/-- CPython's `slice.indices(n)` (`PySlice_GetIndicesEx`): clamp start/stop
into range for the sign of the step; `none` models the `ValueError` raised
for step 0. -/
def sliceIndices (s : PySlice) (n : Nat) : Option (Int × Int × Int) :=
  let step := s.step.getD 1
  if step = 0 then Option.none else
  let lower : Int := if step < 0 then -1 else 0
  let upper : Int := if step < 0 then (n : Int) - 1 else (n : Int)
  let start := match s.start with
    | Option.none => if step < 0 then upper else lower
    | some st => if st < 0 then max (st + n) lower else min st upper
  let stop := match s.stop with
    | Option.none => if step < 0 then lower else upper
    | some sp => if sp < 0 then max (sp + n) lower else min sp upper
  some (start, stop, step)

/-- Number of elements of Python `range(start, stop, step)` (step ≠ 0). -/
def rangeLen (start stop step : Int) : Nat :=
  if 0 < step then (((stop - start) + step - 1) / step).toNat
  else (((start - stop) + (-step) - 1) / (-step)).toNat

/-- The elements of Python `range(start, stop, step)` in order. -/
def rangeList (start stop step : Int) : List Int :=
  (List.range (rangeLen start stop step)).map (fun i => start + step * i)

/-- A key accepted by the views' `__getitem__`: an int or a slice. -/
inductive TableKey where
  | int (i : Int)
  | slice (s : PySlice)
deriving DecidableEq, Repr

/-- One row (or cell) versus an ordered list of them. -/
inductive RowsResult (α : Type) where
  | one (a : α)
  | many (l : List α)
deriving DecidableEq, Repr

/-- Embedding of `tablerow.__getitem__`: a slice is resolved against
`len(self)` and each resolved index fetched with `self.get`; an int key is a
single `self.get`.  `get` abstracts the view's (wrapped) `get` method. -/
def tablerow_getitem {α : Type} (get : Int → α) (nrows : Nat) :
    TableKey → Option (RowsResult α)
  | .slice s => (sliceIndices s nrows).map
      (fun t => .many ((rangeList t.1 t.2.1 t.2.2).map get))
  | .int i => some (.one (get i))

/-- Embedding of `tablecolumn.__getitem__`: identical logic, with the slice
resolved against `self._table.nrows()`. -/
def tablecolumn_getitem {α : Type} (get : Int → α) (nrowsTable : Nat) :
    TableKey → Option (RowsResult α)
  | .slice s => (sliceIndices s nrowsTable).map
      (fun t => .many ((rangeList t.1 t.2.1 t.2.2).map get))
  | .int i => some (.one (get i))

theorem sliceIndices_one_three (N : Nat) (hN : 3 ≤ N) :
    sliceIndices ⟨some 1, some 3, Option.none⟩ N = some (1, 3, 1) := by
  have hN' : (3 : Int) ≤ (N : Int) := by exact_mod_cast hN
  rw [sliceIndices]
  simp only [Option.getD]
  rw [if_neg (by omega : ¬(1 : Int) = 0)]
  simp only [if_neg (by omega : ¬(1 : Int) < 0),
    if_neg (by omega : ¬(3 : Int) < 0)]
  rw [min_eq_left (by omega : (1 : Int) ≤ (N : Int)),
    min_eq_left (by omega : (3 : Int) ≤ (N : Int))]

theorem rangeList_one_three : rangeList 1 3 1 = [1, 2] := by decide

/-- C6: for both views over `N` rows, an int key `k` returns `get(k)`; a
slice key resolves against the view's row count and returns the ordered
`get(i)` for each resolved index `i` — sequential single-row gets — and the
two views treat slices identically; in particular `view[1:3]` is
`[get(1), get(2)]`. -/
theorem getitem_sequential_gets {α : Type} (get : Int → α) (N : Nat) (k : Int)
    (s : PySlice) (t : Int × Int × Int) (hres : sliceIndices s N = some t)
    (hN : 3 ≤ N) :
    tablerow_getitem get N (.int k) = some (.one (get k)) ∧
    tablecolumn_getitem get N (.int k) = some (.one (get k)) ∧
    tablerow_getitem get N (.slice s) =
      some (.many ((rangeList t.1 t.2.1 t.2.2).map get)) ∧
    tablecolumn_getitem get N (.slice s) = tablerow_getitem get N (.slice s) ∧
    tablerow_getitem get N (.slice ⟨some 1, some 3, Option.none⟩) =
      some (.many [get 1, get 2]) ∧
    tablecolumn_getitem get N (.slice ⟨some 1, some 3, Option.none⟩) =
      some (.many [get 1, get 2]) := by
  have h13 : ∀ glue : Unit, sliceIndices ⟨some 1, some 3, Option.none⟩ N =
      some (1, 3, 1) := fun _ => sliceIndices_one_three N hN
  refine ⟨rfl, rfl, ?_, ?_, ?_, ?_⟩
  · rw [tablerow_getitem, hres]
    rfl
  · rw [tablerow_getitem, tablecolumn_getitem]
  · rw [tablerow_getitem, h13 ()]
    show some (RowsResult.many ((rangeList 1 3 1).map get)) = _
    rw [rangeList_one_three]
    rfl
  · rw [tablecolumn_getitem, h13 ()]
    show some (RowsResult.many ((rangeList 1 3 1).map get)) = _
    rw [rangeList_one_three]
    rfl

/-- Witness for C6 on a 5-row view with `get = id`: `view[2]` is row 2 and
`view[1:3]` is `[get 1, get 2] = [1, 2]`. -/
theorem getitem_sequential_gets_witness :
    tablerow_getitem (fun i : Int => i) 5 (.int 2) = some (.one 2) ∧
    tablecolumn_getitem (fun i : Int => i) 5 (.int 2) = some (.one 2) ∧
    tablerow_getitem (fun i : Int => i) 5
        (.slice ⟨Option.none, Option.none, Option.none⟩) =
      some (.many ((rangeList 0 5 1).map (fun i : Int => i))) ∧
    tablecolumn_getitem (fun i : Int => i) 5
        (.slice ⟨Option.none, Option.none, Option.none⟩) =
      tablerow_getitem (fun i : Int => i) 5
        (.slice ⟨Option.none, Option.none, Option.none⟩) ∧
    tablerow_getitem (fun i : Int => i) 5
        (.slice ⟨some 1, some 3, Option.none⟩) = some (.many [1, 2]) ∧
    tablecolumn_getitem (fun i : Int => i) 5
        (.slice ⟨some 1, some 3, Option.none⟩) = some (.many [1, 2]) :=
  getitem_sequential_gets (fun i : Int => i) 5 2
    ⟨Option.none, Option.none, Option.none⟩ (0, 5, 1) (by decide) (by decide)

/-! ## `coordinatesystem.get_axes` (lines 452–469) -/

/-- The engine data `get_axes` consumes: `self._cs.names()`, the native-order
`self._cs.coordinatetype()`, and `self._cs.findcoordinate(type).get('pixel')`. -/
structure CoordSys where
  names : List String
  coordinatetype : List String
  findcoordinate_pixel : String → List Nat

/-- Model of Python `str.lower` (per character). -/
def pyLower (s : String) : String := ⟨s.data.map Char.toLower⟩

/-- Embedding of `coordinatesystem.get_names`: coordinate types reversed and
lower-cased. -/
def get_names (cs : CoordSys) : List String :=
  (cs.coordinatetype.reverse).map pyLower

/-- The list comprehension `[axis_names[idx] for idx in axis_inds[::-1]]`
applied to an already-reversed index list; `none` models an `IndexError`. -/
def lookupNames (names : List String) : List Nat → Option (List String)
  | [] => some []
  | idx :: rest =>
    match names[idx]?, lookupNames names rest with
    | some nm, some ns => some (nm :: ns)
    | _, _ => Option.none

/-- An element of `get_axes`'s result: either a bare name (the spectral
special case `axes_list = axes_list[0]`) or a list of names. -/
inductive AxisEntry where
  | single (s : String)
  | multi (l : List String)
deriving DecidableEq, Repr

/-- The `for axis_type in self.get_names()` loop of `get_axes`:
`axes_list[0]` on an empty list models the `IndexError` as `none`, and any
raised error propagates through the rest of the loop (Option.bind). -/
def get_axes_loop (cs : CoordSys) : List String → Option (List AxisEntry)
  | [] => some []
  | t :: rest =>
    (lookupNames cs.names ((cs.findcoordinate_pixel t).reverse)).bind fun axes_list =>
      (if t = "spectral" then axes_list.head?.map AxisEntry.single
       else some (.multi axes_list)).bind fun e =>
        (get_axes_loop cs rest).map fun es => e :: es

/-- Embedding of `coordinatesystem.get_axes`. -/
def get_axes (cs : CoordSys) : Option (List AxisEntry) :=
  get_axes_loop cs (get_names cs)

/-- The claim's description of one entry: the axis names of the type in
reversed-axis order, a bare single name for the spectral type. -/
def axisEntrySpec (cs : CoordSys) (t : String) : AxisEntry :=
  let ns := ((cs.findcoordinate_pixel t).reverse).map
    (fun idx => cs.names.getD idx "")
  if t = "spectral" then .single (ns.headD "") else .multi ns

/-- The claim's description of the whole result: one entry per coordinate
type, in reversed-type order. -/
def get_axes_spec (cs : CoordSys) : List AxisEntry :=
  (get_names cs).map (axisEntrySpec cs)

theorem lookupNames_total (names : List String) (l : List Nat)
    (h : ∀ idx ∈ l, idx < names.length) :
    lookupNames names l = some (l.map (fun idx => names.getD idx "")) := by
  induction l with
  | nil => rfl
  | cons idx rest ih =>
    have hlt : idx < names.length := h idx (List.mem_cons_self idx rest)
    rw [lookupNames, ih (fun i hi => h i (List.mem_cons_of_mem idx hi)),
      List.getElem?_eq_getElem hlt]
    rw [List.map_cons, show names.getD idx "" = names[idx] from by
      rw [List.getD_eq_getElem?_getD, List.getElem?_eq_getElem hlt]
      rfl]

theorem head?_eq_headD {α : Type} (l : List α) (d : α) (h : l ≠ []) :
    l.head? = some (l.headD d) := by
  cases l with
  | nil => exact absurd rfl h
  | cons a rest => rfl

/-- C9: under valid engine data (all pixel indices in range, a non-empty
pixel list for the spectral type), `get_axes` returns, for each coordinate
type in reversed-type order, the names of that type's axes in reversed-axis
order — as a bare name for the spectral coordinate type, and as a list for
every other type. -/
theorem get_axes_reversed_grouped (cs : CoordSys)
    (hidx : ∀ t ∈ get_names cs, ∀ idx ∈ cs.findcoordinate_pixel t,
      idx < cs.names.length)
    (hspec : ∀ t ∈ get_names cs, t = "spectral" →
      cs.findcoordinate_pixel t ≠ []) :
    get_axes cs = some (get_axes_spec cs) ∧
    (∀ t ∈ get_names cs, t = "spectral" → axisEntrySpec cs t =
      .single ((((cs.findcoordinate_pixel t).reverse).map
        (fun idx => cs.names.getD idx "")).headD "")) ∧
    (∀ t ∈ get_names cs, t ≠ "spectral" → axisEntrySpec cs t =
      .multi (((cs.findcoordinate_pixel t).reverse).map
        (fun idx => cs.names.getD idx ""))) := by
  refine ⟨?_, ?_, ?_⟩
  · rw [get_axes, get_axes_spec]
    have hgen : ∀ ts : List String, (∀ t ∈ ts, t ∈ get_names cs) →
        get_axes_loop cs ts = some (ts.map (axisEntrySpec cs)) := by
      intro ts
      induction ts with
      | nil => intro _; rfl
      | cons t rest ih =>
        intro hts
        have ht : t ∈ get_names cs := hts t (List.mem_cons_self t rest)
        have hlook := lookupNames_total cs.names
          ((cs.findcoordinate_pixel t).reverse)
          (fun i hi => hidx t ht i (List.mem_reverse.mp hi))
        rw [get_axes_loop, hlook, Option.some_bind]
        by_cases hsp : t = "spectral"
        · have hne : ((cs.findcoordinate_pixel t).reverse).map
              (fun idx => cs.names.getD idx "") ≠ [] := by
            simp [hspec t ht hsp]
          rw [if_pos hsp, head?_eq_headD _ "" hne, Option.map_some',
            Option.some_bind,
            ih (fun x hx => hts x (List.mem_cons_of_mem t hx)),
            Option.map_some', List.map_cons,
            show axisEntrySpec cs t =
              .single ((((cs.findcoordinate_pixel t).reverse).map
                (fun idx => cs.names.getD idx "")).headD "") from by
              rw [axisEntrySpec, if_pos hsp]]
        · rw [if_neg hsp, Option.some_bind,
            ih (fun x hx => hts x (List.mem_cons_of_mem t hx)),
            Option.map_some', List.map_cons,
            show axisEntrySpec cs t =
              .multi (((cs.findcoordinate_pixel t).reverse).map
                (fun idx => cs.names.getD idx "")) from by
              rw [axisEntrySpec, if_neg hsp]]
    exact hgen (get_names cs) (fun t ht => ht)
  · intro t _ hsp
    rw [axisEntrySpec, if_pos hsp]
  · intro t _ hsp
    rw [axisEntrySpec, if_neg hsp]

/-- Witness for C9 on a 4-axis image coordinate system (direction pair,
stokes, spectral): the spectral entry is the bare name `"Frequency"`, the
others are lists in reversed-axis order. -/
theorem get_axes_reversed_grouped_witness :
    get_axes ⟨["Right Ascension", "Declination", "Stokes", "Frequency"],
        ["Direction", "Stokes", "Spectral"],
        fun t => if t = "direction" then [0, 1]
          else if t = "stokes" then [2]
          else if t = "spectral" then [3] else []⟩ =
      some (get_axes_spec
        ⟨["Right Ascension", "Declination", "Stokes", "Frequency"],
          ["Direction", "Stokes", "Spectral"],
          fun t => if t = "direction" then [0, 1]
            else if t = "stokes" then [2]
            else if t = "spectral" then [3] else []⟩) ∧
    get_axes_spec ⟨["Right Ascension", "Declination", "Stokes", "Frequency"],
        ["Direction", "Stokes", "Spectral"],
        fun t => if t = "direction" then [0, 1]
          else if t = "stokes" then [2]
          else if t = "spectral" then [3] else []⟩ =
      [.single "Frequency", .multi ["Stokes"],
        .multi ["Declination", "Right Ascension"]] :=
  ⟨(get_axes_reversed_grouped
      ⟨["Right Ascension", "Declination", "Stokes", "Frequency"],
        ["Direction", "Stokes", "Spectral"],
        fun t => if t = "direction" then [0, 1]
          else if t = "stokes" then [2]
          else if t = "spectral" then [3] else []⟩
      (by decide) (by decide)).1, by decide⟩

end Casacore
